import Mathlib

/-!
Verification of the retrieval core of the floneum repository: sentence
chunking, chunk-strategy validation, document-database extend, the
vector index with cosine-similarity ranking, the fuzzy index, and the
OpenAI remote wrappers (AdaEmbedder::embed and
MappedResponseStream::poll_next from
src/language-model/src/remote/open_ai.rs).

The chunker, the two indices and the two databases are not present in
the given sources (only a caller example is), so they are modelled from
the specification; the OpenAI wrapper functions are shallowly embedded
from the Rust source.
-/

namespace Floneum

/-- Modelled from the spec: the ChunkStrategy configuration (section 3).
The repository file defining ChunkStrategy is missing from the given
sources; the Sentence variant carries a window size and an overlap. -/
inductive ChunkStrategy where
  | sentence (sentence_count : Nat) (overlap : Nat)
deriving DecidableEq

/-- Modelled from the spec: ConfigurationError (section 7), raised for
invalid ChunkStrategy parameters. -/
inductive ConfigurationError where
  | zeroSentenceCount
  | overlapTooLarge
deriving DecidableEq

/-- Modelled from the spec: validating construction of
ChunkStrategy::Sentence (sections 4.1 and 7). The constructor itself is
missing from the given sources; per the spec it rejects
sentence_count = 0 and overlap >= sentence_count at construction time,
before any document is processed (no document argument appears here). -/
def mkSentence (n o : Nat) : Except ConfigurationError ChunkStrategy :=
  if n = 0 then Except.error ConfigurationError.zeroSentenceCount
  else if n ≤ o then Except.error ConfigurationError.overlapTooLarge
  else Except.ok (ChunkStrategy.sentence n o)

/-- Number of sentence windows for a document of s sentences: none for
an empty document; otherwise the starts advance by the stride n - o and
the first window whose end reaches the document end is the last one
emitted, so the count is one more than the least q with
q * (n - o) + n at least s, that is ceil(max(s - n, 0) / (n - o)) + 1. -/
def numChunks (n o s : Nat) : Nat :=
  if s = 0 then 0 else (s - n + (n - o) - 1) / (n - o) + 1

/-- Modelled from the spec: the sentence-window chunker (section 4.1).
The chunker implementation is missing from the given sources. Sentence
segmentation is an external step, so the document is taken as its list
of sentences; windows of n consecutive sentences start at 0 and advance
by the stride n - o each step, and the first window whose end reaches
the document end — the only window allowed to be shorter than n — is
the last one emitted, so consecutive windows always share exactly o
sentences; a document with zero sentences yields zero windows. -/
def sentenceChunks (n o : Nat) (sents : List α) : List (List α) :=
  (List.range (numChunks n o sents.length)).map
    (fun i => (sents.drop (i * (n - o))).take n)

/-- Modelled from the spec: a Vector Index entry, a stored pair of a
chunk and its embedding (section 3); embeddings are fixed-length
sequences of numbers, taken here over the rationals. -/
structure VEntry where
  chunk : String
  embedding : List ℚ
deriving DecidableEq

/-- Value of a successful Except, with a default for the error case. -/
def okValue [Inhabited α] : Except ε α → α
  | Except.ok v => v
  | Except.error _ => default

/-- Modelled from the spec: the chunk-embedding loop of Document
Database extend (section 4.4), missing from the given sources. Each
chunk is embedded through the capability and appended to the index; the
first embedding failure aborts the remainder and is returned, prior
inserts staying in place. -/
def extendChunks (embed : String → Except ε (List ℚ)) :
    List VEntry → List String → List VEntry × Except ε Unit
  | idx, [] => (idx, Except.ok ())
  | idx, c :: rest =>
    match embed c with
    | Except.error e => (idx, Except.error e)
    | Except.ok v => extendChunks embed (idx ++ [VEntry.mk c v]) rest

/-- Modelled from the spec: the chunk texts of one document, each chunk
text being the concatenation of its sentence window (section 4.1). -/
def docChunks (n o : Nat) (doc : List String) : List String :=
  (sentenceChunks n o doc).map String.join

/-- Modelled from the spec: Document Database extend (section 4.4),
missing from the given sources; every document is chunked by the
configured strategy and each chunk is embedded and inserted in order. -/
def dbExtend (embed : String → Except ε (List ℚ)) (n o : Nat)
    (idx : List VEntry) (docs : List (List String)) :
    List VEntry × Except ε Unit :=
  extendChunks embed idx (docs.flatMap (docChunks n o))

theorem numChunks_zero (n o : Nat) : numChunks n o 0 = 0 := by
  simp [numChunks]

theorem numChunks_eq (n o s : Nat) (hs : s ≠ 0) :
    numChunks n o s = (s - n + (n - o) - 1) / (n - o) + 1 := by
  simp [numChunks, hs]

theorem sentenceChunks_length (n o : Nat) (sents : List α) :
    (sentenceChunks n o sents).length = numChunks n o sents.length := by
  simp [sentenceChunks]

theorem sentenceChunks_get (n o : Nat) (sents : List α) (i : Nat)
    (hi : i < (sentenceChunks n o sents).length) :
    (sentenceChunks n o sents).get ⟨i, hi⟩ =
      (sents.drop (i * (n - o))).take n := by
  simp [sentenceChunks]

theorem start_lt (n o s : Nat) (h : o < n) (i : Nat)
    (hi : i < numChunks n o s) : i * (n - o) < s := by
  have hst : 0 < n - o := by omega
  rcases Nat.eq_zero_or_pos s with hs | hs
  · rw [hs, numChunks_zero] at hi
    omega
  · rw [numChunks_eq n o s (by omega)] at hi
    rcases le_or_lt n s with hns | hns
    · have h1 : i ≤ (s - n + (n - o) - 1) / (n - o) := by omega
      have h2 : i * (n - o) ≤ ((s - n + (n - o) - 1) / (n - o)) * (n - o) :=
        Nat.mul_le_mul_right _ h1
      have h3 : ((s - n + (n - o) - 1) / (n - o)) * (n - o) ≤
          s - n + (n - o) - 1 := Nat.div_mul_le_self _ _
      have h4 : n - o ≤ n := Nat.sub_le n o
      omega
    · have h0 : s - n = 0 := by omega
      have h1 : (s - n + (n - o) - 1) / (n - o) = 0 := by
        rw [h0]
        exact Nat.div_eq_of_lt (by omega)
      rw [h1] at hi
      have h2 : i = 0 := by omega
      subst h2
      simpa using hs

theorem next_window_long (n o s : Nat) (h : o < n) (i : Nat)
    (hi : i + 1 < numChunks n o s) : i * (n - o) + n < s := by
  have hst : 0 < n - o := by omega
  rcases Nat.eq_zero_or_pos s with hs | hs
  · rw [hs, numChunks_zero] at hi
    omega
  · rw [numChunks_eq n o s (by omega)] at hi
    have h1 : i + 1 ≤ (s - n + (n - o) - 1) / (n - o) := by omega
    have h2 : (i + 1) * (n - o) ≤
        ((s - n + (n - o) - 1) / (n - o)) * (n - o) :=
      Nat.mul_le_mul_right _ h1
    have h3 : ((s - n + (n - o) - 1) / (n - o)) * (n - o) ≤
        s - n + (n - o) - 1 := Nat.div_mul_le_self _ _
    have h4 : (i + 1) * (n - o) = i * (n - o) + (n - o) := by ring
    omega

theorem last_covers (n o s : Nat) (h : o < n) (hs : 0 < s) :
    s ≤ (numChunks n o s - 1) * (n - o) + n := by
  have hst : 0 < n - o := by omega
  rw [numChunks_eq n o s (by omega)]
  simp only [Nat.add_sub_cancel]
  have h1 : (s - n + (n - o) - 1) / (n - o) <
      (s - n + (n - o) - 1) / (n - o) + 1 := Nat.lt_succ_self _
  have h2 : s - n + (n - o) - 1 <
      ((s - n + (n - o) - 1) / (n - o) + 1) * (n - o) :=
    (Nat.div_lt_iff_lt_mul hst).mp h1
  have h3 : ((s - n + (n - o) - 1) / (n - o) + 1) * (n - o) =
      ((s - n + (n - o) - 1) / (n - o)) * (n - o) + (n - o) := by ring
  omega

theorem numChunks_formula (n o s : Nat) (h : o < n) (hs : o < s) :
    numChunks n o s = (s - o + (n - o) - 1) / (n - o) := by
  have hst : 0 < n - o := by omega
  rw [numChunks_eq n o s (by omega)]
  rcases le_or_lt n s with hns | hns
  · have h1 : s - o + (n - o) - 1 = (s - n + (n - o) - 1) + (n - o) := by
      omega
    rw [h1, Nat.add_div_right _ hst]
  · have h0 : s - n = 0 := by omega
    have h1 : (s - n + (n - o) - 1) / (n - o) = 0 := by
      rw [h0]
      exact Nat.div_eq_of_lt (by omega)
    rw [h1]
    have h2 : (n - o) ≤ s - o + (n - o) - 1 := by omega
    rw [Nat.div_eq_sub_div hst h2]
    have h3 : (s - o + (n - o) - 1 - (n - o)) / (n - o) = 0 :=
      Nat.div_eq_of_lt (by omega)
    rw [h3]

theorem sentenceChunks_overlap (n o : Nat) (h : o < n) (sents : List α)
    (i : Nat) (hi : i + 1 < (sentenceChunks n o sents).length) :
    ((sentenceChunks n o sents).get
        ⟨i, Nat.lt_of_succ_lt hi⟩).drop (n - o) =
      ((sentenceChunks n o sents).get ⟨i + 1, hi⟩).take o := by
  rw [sentenceChunks_get, sentenceChunks_get]
  rw [List.drop_take, List.drop_drop]
  have h1 : n - (n - o) = o := by omega
  have h2 : i * (n - o) + (n - o) = (i + 1) * (n - o) := by ring
  rw [h1, h2]
  rw [List.take_take, Nat.min_def]
  have h3 : o ≤ n := Nat.le_of_lt h
  simp [h3]

theorem sentenceChunks_share (n o : Nat) (h : o < n) (sents : List α)
    (i : Nat) (hi : i + 1 < (sentenceChunks n o sents).length) :
    (((sentenceChunks n o sents).get ⟨i + 1, hi⟩).take o).length = o := by
  rw [sentenceChunks_get]
  have hlen : i * (n - o) + n < sents.length := by
    apply next_window_long n o sents.length h i
    rw [← sentenceChunks_length n o sents]
    exact hi
  simp only [List.length_take, List.length_drop]
  have h4 : (i + 1) * (n - o) = i * (n - o) + (n - o) := by ring
  omega

theorem mem_window (sents : List α) (a j n2 : Nat) (hj : j < sents.length)
    (h1 : a ≤ j) (h2 : j < a + n2) :
    sents[j] ∈ (sents.drop a).take n2 := by
  have hlen1 : j - a < ((sents.drop a).take n2).length := by
    rw [List.length_take, List.length_drop]
    omega
  have hget : ((sents.drop a).take n2)[j - a] = sents[j] := by
    rw [List.getElem_take, List.getElem_drop]
    congr 1
    omega
  rw [← hget]
  exact List.getElem_mem hlen1

theorem sentenceChunks_cover (n o : Nat) (h : o < n) (sents : List α)
    (j : Nat) (hj : j < sents.length) :
    ∃ i, ∃ hi : i < (sentenceChunks n o sents).length,
      sents[j] ∈ (sentenceChunks n o sents)[i] := by
  have hst : 0 < n - o := by omega
  have hs0 : sents.length ≠ 0 := by omega
  have hm : 0 < numChunks n o sents.length := by
    rw [numChunks_eq n o _ hs0]
    exact Nat.succ_pos _
  have hlast := last_covers n o sents.length h (by omega)
  have hdivle : (j / (n - o)) * (n - o) ≤ j := Nat.div_mul_le_self _ _
  have hdivup : j < (j / (n - o)) * (n - o) + (n - o) := by
    have h1 : j / (n - o) < j / (n - o) + 1 := Nat.lt_succ_self _
    have h2 : j < (j / (n - o) + 1) * (n - o) :=
      (Nat.div_lt_iff_lt_mul hst).mp h1
    have h3 : (j / (n - o) + 1) * (n - o) =
        (j / (n - o)) * (n - o) + (n - o) := by ring
    omega
  have hnst : n - o ≤ n := Nat.sub_le n o
  refine ⟨min (j / (n - o)) (numChunks n o sents.length - 1), ?_, ?_⟩
  · rw [sentenceChunks_length]
    omega
  · simp only [sentenceChunks, List.getElem_map, List.getElem_range]
    apply mem_window sents _ j n hj
    · rcases le_or_lt (j / (n - o)) (numChunks n o sents.length - 1)
        with hc | hc
      · rw [min_eq_left hc]
        exact hdivle
      · rw [min_eq_right (le_of_lt hc)]
        have h2 : (numChunks n o sents.length - 1) * (n - o) ≤
            (j / (n - o)) * (n - o) :=
          Nat.mul_le_mul_right _ (le_of_lt hc)
        omega
    · rcases le_or_lt (j / (n - o)) (numChunks n o sents.length - 1)
        with hc | hc
      · rw [min_eq_left hc]
        omega
      · rw [min_eq_right (le_of_lt hc)]
        omega

theorem sentenceChunks_nil (n o : Nat) :
    sentenceChunks n o ([] : List α) = [] := by
  simp [sentenceChunks, numChunks]

theorem extendChunks_error_eq (embed : String → Except ε (List ℚ))
    (cs : List String) (i : Nat) (e : ε) (hi : i < cs.length)
    (hok : ∀ j, j < i → ∃ v, embed (cs.getD j "") = Except.ok v)
    (herr : embed (cs.getD i "") = Except.error e) (idx : List VEntry) :
    extendChunks embed idx cs =
      (idx ++ (cs.take i).map (fun c => VEntry.mk c (okValue (embed c))),
        Except.error e) := by
  induction cs generalizing i idx with
  | nil => exact absurd hi (by simp)
  | cons c rest ih =>
    cases i with
    | zero =>
      simp only [List.getD_cons_zero] at herr
      simp [extendChunks, herr]
    | succ i =>
      obtain ⟨v, hv⟩ := hok 0 (Nat.succ_pos i)
      simp only [List.getD_cons_zero] at hv
      simp only [List.getD_cons_succ] at herr
      have hok2 : ∀ j, j < i → ∃ w, embed (rest.getD j "") = Except.ok w := by
        intro j hj
        have h2 := hok (j + 1) (Nat.succ_lt_succ hj)
        simpa using h2
      have hi2 : i < rest.length := by simpa using hi
      rw [show extendChunks embed idx (c :: rest) =
          extendChunks embed (idx ++ [VEntry.mk c v]) rest by
        simp [extendChunks, hv]]
      rw [ih i hi2 hok2 herr]
      simp [hv, okValue]
/-- One element of the data array of the embeddings API response
(async_openai CreateEmbeddingResponse), as used by AdaEmbedder::embed in
src/language-model/src/remote/open_ai.rs. -/
structure EmbeddingData where
  embedding : List ℚ
deriving DecidableEq

/-- The embeddings API response: its data array. -/
structure CreateEmbeddingResponse where
  data : List EmbeddingData
deriving DecidableEq

/-- Outcome of running AdaEmbedder::embed: a successful embedding, a
propagated error, or a Rust panic (out-of-bounds Vec index). -/
inductive EmbedOutcome (ε : Type) where
  | ok (emb : List ℚ)
  | err (e : ε)
  | panicked
deriving DecidableEq

/-- Shallow embedding of AdaEmbedder::embed
(src/language-model/src/remote/open_ai.rs, lines 145-156). The request
builder and the remote call are the two fallible collaborators, passed
as functions; the question-mark operator on each is Except propagation.
On a successful response the code reads response.data[0] with no
emptiness check: Vec indexing out of bounds is a Rust panic, modelled by
the panicked outcome. -/
def adaEmbed (build : String → Except ε ρ)
    (create : ρ → Except ε CreateEmbeddingResponse) (input : String) :
    EmbedOutcome ε :=
  match build input with
  | Except.error e => EmbedOutcome.err e
  | Except.ok req =>
    match create req with
    | Except.error e => EmbedOutcome.err e
    | Except.ok resp =>
      match resp.data with
      | [] => EmbedOutcome.panicked
      | d :: _ => EmbedOutcome.ok d.embedding

/-- One choice of a completion response chunk from the OpenAI stream. -/
structure Choice where
  text : String
deriving DecidableEq

/-- A completion response chunk: its list of choices. -/
structure CompletionResponse where
  choices : List Choice
deriving DecidableEq

/-- A poll result: ready with a value, or pending, mirroring
std::task::Poll. -/
inductive Poll (α : Type) where
  | ready (val : α)
  | pending
deriving DecidableEq

/-- Rust Vec::join with a separator string, as used by
MappedResponseStream::poll_next through collect and join. -/
def joinSep (sep : String) : List String → String
  | [] => ""
  | [x] => x
  | x :: y :: t => x ++ sep ++ joinSep sep (y :: t)

/-- Per-item mapping applied by MappedResponseStream::poll_next
(src/language-model/src/remote/open_ai.rs, lines 91-104): an Ok
response becomes the join of its choices texts with the empty
separator, an Err item is logged and becomes None. -/
def mapItem : Except ε CompletionResponse → Option String
  | Except.ok r => some (joinSep "" (r.choices.map Choice.text))
  | Except.error _ => none

/-- Shallow embedding of MappedResponseStream::poll_next
(src/language-model/src/remote/open_ai.rs, lines 86-106): the inner
poll result is mapped, with Option.bind playing the role of and_then;
a ready None (inner stream end, or an Err item) ends the mapped
stream. -/
def pollNextMapped (p : Poll (Option (Except ε CompletionResponse))) :
    Poll (Option String) :=
  match p with
  | Poll.pending => Poll.pending
  | Poll.ready opt => Poll.ready (opt.bind mapItem)

theorem joinSep_empty_sep (l : List String) :
    joinSep "" l = String.join l := by
  induction l with
  | nil => rfl
  | cons x t ih =>
    cases t with
    | nil => simp [joinSep, String.join]
    | cons y t2 =>
      rw [show joinSep "" (x :: y :: t2) = x ++ "" ++ joinSep "" (y :: t2)
          from rfl]
      rw [ih]
      apply String.ext
      simp [String.join_eq]
/-- Modelled from the spec: the dot product of two embeddings, paired
componentwise up to the shorter length. -/
def dot : List ℚ → List ℚ → ℚ
  | a :: as, b :: bs => a * b + dot as bs
  | _, _ => 0

/-- Squared magnitude of an embedding. -/
def normSq (v : List ℚ) : ℚ := dot v v

/-- Modelled from the spec: the magnitude of an embedding, the square
root of the sum of squares, as a real number. -/
noncomputable def magnitude (v : List ℚ) : ℝ := Real.sqrt ((normSq v : ℚ) : ℝ)

/-- Modelled from the spec: cosine similarity, the dot product divided
by the product of the magnitudes (section 4.2); with the Lean
convention that division by zero is zero, a zero vector has similarity
zero to everything. -/
noncomputable def cosineSim (a b : List ℚ) : ℝ :=
  ((dot a b : ℚ) : ℝ) / (magnitude a * magnitude b)

@[simp] theorem dot_nil_left (b : List ℚ) : dot [] b = 0 := by
  cases b <;> rfl

@[simp] theorem dot_nil_right (a : List ℚ) : dot a [] = 0 := by
  cases a <;> rfl

@[simp] theorem dot_cons (a b : ℚ) (as bs : List ℚ) :
    dot (a :: as) (b :: bs) = a * b + dot as bs := rfl

theorem normSq_nonneg (v : List ℚ) : 0 ≤ normSq v := by
  induction v with
  | nil => simp [normSq]
  | cons a as ih =>
    have h := mul_self_nonneg a
    simp only [normSq, dot_cons] at *
    linarith

theorem cs_step (x y D Na Nb : ℚ) (hD : D ^ 2 ≤ Na * Nb)
    (hNa : 0 ≤ Na) (hNb : 0 ≤ Nb) :
    (x * y + D) ^ 2 ≤ (x * x + Na) * (y * y + Nb) := by
  rcases le_or_lt (x * y * D) 0 with hs | hs
  · nlinarith [mul_nonneg (sq_nonneg x) hNb, mul_nonneg (sq_nonneg y) hNa]
  · have key : x ^ 2 * y ^ 2 * D ^ 2 ≤ x ^ 2 * y ^ 2 * (Na * Nb) := by
      have h1 : (0 : ℚ) ≤ x ^ 2 * y ^ 2 := by positivity
      exact mul_le_mul_of_nonneg_left hD h1
    have hS : 0 ≤ x ^ 2 * Nb + y ^ 2 * Na := by positivity
    nlinarith [sq_nonneg (x ^ 2 * Nb - y ^ 2 * Na), key, hS, hs, hD]

theorem dot_sq_le (a b : List ℚ) : dot a b ^ 2 ≤ normSq a * normSq b := by
  induction a generalizing b with
  | nil => simpa using mul_nonneg (normSq_nonneg []) (normSq_nonneg b)
  | cons x as ih =>
    cases b with
    | nil =>
      simpa using mul_nonneg (normSq_nonneg (x :: as)) (normSq_nonneg [])
    | cons y bs =>
      have hD := ih bs
      have hNa := normSq_nonneg as
      have hNb := normSq_nonneg bs
      simp only [normSq, dot_cons] at *
      exact cs_step x y (dot as bs) (dot as as) (dot bs bs) hD hNa hNb

theorem dot_eq_zero_of (e a : List ℚ) (h : normSq e * normSq a = 0) :
    dot e a = 0 := by
  have h1 := dot_sq_le e a
  rw [h] at h1
  have h2 := sq_nonneg (dot e a)
  nlinarith

/-- Decidable comparison implementing the similarity order: simGeB e a b
holds when the cosine similarity of a to e is at least that of b to e,
decided with rational arithmetic on the squares. -/
def simGeB (e a b : List ℚ) : Bool :=
  if normSq e * normSq a = 0 then decide (dot e b ≤ 0)
  else if normSq e * normSq b = 0 then decide (0 ≤ dot e a)
  else if 0 ≤ dot e a then
    if 0 ≤ dot e b then
      decide (dot e b ^ 2 * (normSq e * normSq a) ≤
        dot e a ^ 2 * (normSq e * normSq b))
    else true
  else if 0 ≤ dot e b then false
  else
    decide (dot e a ^ 2 * (normSq e * normSq b) ≤
      dot e b ^ 2 * (normSq e * normSq a))

theorem cosineSim_eq_div_sqrt (a b : List ℚ) :
    cosineSim a b =
      ((dot a b : ℚ) : ℝ) / Real.sqrt (((normSq a * normSq b : ℚ) : ℝ)) := by
  rw [cosineSim, magnitude, magnitude]
  rw [show (((normSq a * normSq b : ℚ) : ℝ)) =
      ((normSq a : ℚ) : ℝ) * ((normSq b : ℚ) : ℝ) by push_cast; ring]
  rw [Real.sqrt_mul (by exact_mod_cast normSq_nonneg a)]

theorem mul_sqrt_le_iff (x y A B : ℝ) (hx : 0 ≤ x) (hy : 0 ≤ y)
    (hA : 0 ≤ A) (hB : 0 ≤ B) :
    x * Real.sqrt A ≤ y * Real.sqrt B ↔ x ^ 2 * A ≤ y ^ 2 * B := by
  constructor
  · intro hle
    rw [show x ^ 2 * A = (x * Real.sqrt A) ^ 2 by
        rw [mul_pow, Real.sq_sqrt hA],
      show y ^ 2 * B = (y * Real.sqrt B) ^ 2 by
        rw [mul_pow, Real.sq_sqrt hB]]
    exact pow_le_pow_left (mul_nonneg hx (Real.sqrt_nonneg A)) hle 2
  · intro hle
    rw [show x * Real.sqrt A = Real.sqrt (x ^ 2 * A) by
        rw [Real.sqrt_mul (sq_nonneg x), Real.sqrt_sq hx],
      show y * Real.sqrt B = Real.sqrt (y ^ 2 * B) by
        rw [Real.sqrt_mul (sq_nonneg y), Real.sqrt_sq hy]]
    exact Real.sqrt_le_sqrt hle

theorem compare_nonneg_nonneg (x y A B : ℝ) (hx : 0 ≤ x) (hy : 0 ≤ y)
    (hA : 0 < A) (hB : 0 < B) :
    y / Real.sqrt B ≤ x / Real.sqrt A ↔ y ^ 2 * A ≤ x ^ 2 * B := by
  rw [div_le_div_iff (Real.sqrt_pos.mpr hB) (Real.sqrt_pos.mpr hA)]
  exact mul_sqrt_le_iff y x A B hy hx (le_of_lt hA) (le_of_lt hB)

theorem compare_pos_neg (x y A B : ℝ) (hx : 0 ≤ x) (hy : y < 0)
    (hA : 0 < A) (hB : 0 < B) :
    y / Real.sqrt B ≤ x / Real.sqrt A := by
  have h1 : y / Real.sqrt B < 0 :=
    div_neg_of_neg_of_pos hy (Real.sqrt_pos.mpr hB)
  have h2 : 0 ≤ x / Real.sqrt A := div_nonneg hx (Real.sqrt_nonneg A)
  linarith

theorem compare_neg_pos (x y A B : ℝ) (hx : x < 0) (hy : 0 ≤ y)
    (hA : 0 < A) (hB : 0 < B) :
    ¬ y / Real.sqrt B ≤ x / Real.sqrt A := by
  intro h0
  have h1 : x / Real.sqrt A < 0 :=
    div_neg_of_neg_of_pos hx (Real.sqrt_pos.mpr hA)
  have h2 : 0 ≤ y / Real.sqrt B := div_nonneg hy (Real.sqrt_nonneg B)
  linarith

theorem compare_neg_neg (x y A B : ℝ) (hx : x < 0) (hy : y < 0)
    (hA : 0 < A) (hB : 0 < B) :
    y / Real.sqrt B ≤ x / Real.sqrt A ↔ x ^ 2 * B ≤ y ^ 2 * A := by
  rw [div_le_div_iff (Real.sqrt_pos.mpr hB) (Real.sqrt_pos.mpr hA)]
  have key := mul_sqrt_le_iff (-x) (-y) B A (by linarith) (by linarith)
    (le_of_lt hB) (le_of_lt hA)
  have e1 : (-x) ^ 2 * B = x ^ 2 * B := by ring
  have e2 : (-y) ^ 2 * A = y ^ 2 * A := by ring
  rw [e1, e2] at key
  constructor
  · intro h1
    exact key.mp (by linarith)
  · intro h1
    have h2 := key.mpr h1
    linarith

theorem div_sqrt_nonpos_iff (y B : ℝ) (hB : 0 < B) :
    y / Real.sqrt B ≤ 0 ↔ y ≤ 0 := by
  rw [div_le_iff (Real.sqrt_pos.mpr hB), zero_mul]

theorem div_sqrt_nonneg_iff (x A : ℝ) (hA : 0 < A) :
    0 ≤ x / Real.sqrt A ↔ 0 ≤ x := by
  rw [le_div_iff (Real.sqrt_pos.mpr hA), zero_mul]

theorem simGeB_iff (e a b : List ℚ) :
    simGeB e a b = true ↔ cosineSim e b ≤ cosineSim e a := by
  have hQa : (0 : ℚ) ≤ normSq e * normSq a :=
    mul_nonneg (normSq_nonneg e) (normSq_nonneg a)
  have hQb : (0 : ℚ) ≤ normSq e * normSq b :=
    mul_nonneg (normSq_nonneg e) (normSq_nonneg b)
  rw [cosineSim_eq_div_sqrt, cosineSim_eq_div_sqrt]
  simp only [simGeB]
  by_cases hA : normSq e * normSq a = 0
  · rw [if_pos hA]
    have hda0 : dot e a = 0 := dot_eq_zero_of e a hA
    rw [hda0]
    simp only [Rat.cast_zero, zero_div, decide_eq_true_eq]
    by_cases hB : normSq e * normSq b = 0
    · have hdb0 : dot e b = 0 := dot_eq_zero_of e b hB
      rw [hdb0]
      simp
    · have hBpos : (0 : ℝ) < ((normSq e * normSq b : ℚ) : ℝ) := by
        exact_mod_cast lt_of_le_of_ne hQb (Ne.symm hB)
      rw [div_sqrt_nonpos_iff _ _ hBpos]
      exact ⟨fun h1 => by exact_mod_cast h1, fun h1 => by exact_mod_cast h1⟩
  · rw [if_neg hA]
    have hApos : (0 : ℝ) < ((normSq e * normSq a : ℚ) : ℝ) := by
      exact_mod_cast lt_of_le_of_ne hQa (Ne.symm hA)
    by_cases hB : normSq e * normSq b = 0
    · rw [if_pos hB]
      have hdb0 : dot e b = 0 := dot_eq_zero_of e b hB
      rw [hdb0]
      simp only [Rat.cast_zero, zero_div, decide_eq_true_eq]
      rw [div_sqrt_nonneg_iff _ _ hApos]
      exact ⟨fun h1 => by exact_mod_cast h1, fun h1 => by exact_mod_cast h1⟩
    · rw [if_neg hB]
      have hBpos : (0 : ℝ) < ((normSq e * normSq b : ℚ) : ℝ) := by
        exact_mod_cast lt_of_le_of_ne hQb (Ne.symm hB)
      by_cases hda : 0 ≤ dot e a
      · rw [if_pos hda]
        have hx : (0 : ℝ) ≤ ((dot e a : ℚ) : ℝ) := by exact_mod_cast hda
        by_cases hdb : 0 ≤ dot e b
        · rw [if_pos hdb]
          have hy : (0 : ℝ) ≤ ((dot e b : ℚ) : ℝ) := by exact_mod_cast hdb
          rw [compare_nonneg_nonneg _ _ _ _ hx hy hApos hBpos]
          simp only [decide_eq_true_eq]
          exact ⟨fun h1 => by exact_mod_cast h1, fun h1 => by exact_mod_cast h1⟩
        · rw [if_neg hdb]
          have hy : ((dot e b : ℚ) : ℝ) < 0 := by
            exact_mod_cast not_le.mp hdb
          exact iff_of_true rfl (compare_pos_neg _ _ _ _ hx hy hApos hBpos)
      · rw [if_neg hda]
        have hx : ((dot e a : ℚ) : ℝ) < 0 := by
          exact_mod_cast not_le.mp hda
        by_cases hdb : 0 ≤ dot e b
        · rw [if_pos hdb]
          have hy : (0 : ℝ) ≤ ((dot e b : ℚ) : ℝ) := by exact_mod_cast hdb
          exact iff_of_false (by simp)
            (compare_neg_pos _ _ _ _ hx hy hApos hBpos)
        · rw [if_neg hdb]
          have hy : ((dot e b : ℚ) : ℝ) < 0 := by
            exact_mod_cast not_le.mp hdb
          rw [compare_neg_neg _ _ _ _ hx hy hApos hBpos]
          simp only [decide_eq_true_eq]
          exact ⟨fun h1 => by exact_mod_cast h1, fun h1 => by exact_mod_cast h1⟩
/-- Modelled from the spec: the ranking order of the Vector Index
(section 4.2) on insertion-indexed entries; an entry precedes another
when its cosine similarity to the query is strictly larger, or equal
with a lower insertion index. -/
def rankLe (e : List ℚ) (x y : Nat × VEntry) : Bool :=
  (simGeB e x.2.embedding y.2.embedding &&
    !simGeB e y.2.embedding x.2.embedding) ||
  (simGeB e x.2.embedding y.2.embedding &&
    simGeB e y.2.embedding x.2.embedding && decide (x.1 ≤ y.1))

theorem rankLe_iff (e : List ℚ) (x y : Nat × VEntry) :
    rankLe e x y = true ↔
      (cosineSim e y.2.embedding < cosineSim e x.2.embedding ∨
        (cosineSim e x.2.embedding = cosineSim e y.2.embedding ∧
          x.1 ≤ y.1)) := by
  have h1 := simGeB_iff e x.2.embedding y.2.embedding
  have h2 := simGeB_iff e y.2.embedding x.2.embedding
  simp only [rankLe, Bool.or_eq_true, Bool.and_eq_true, Bool.not_eq_true',
    decide_eq_true_eq]
  constructor
  · rintro (⟨ha, hb⟩ | ⟨⟨ha, hb⟩, hc⟩)
    · left
      have hle := h1.mp ha
      have hnle : ¬ cosineSim e x.2.embedding ≤ cosineSim e y.2.embedding := by
        intro hc
        have h3 := h2.mpr hc
        rw [h3] at hb
        exact absurd hb (by decide)
      exact lt_of_le_not_le hle hnle
    · exact Or.inr ⟨le_antisymm (h2.mp hb) (h1.mp ha), hc⟩
  · rintro (hlt | ⟨heq, hle⟩)
    · left
      refine ⟨h1.mpr (le_of_lt hlt), ?_⟩
      rw [Bool.eq_false_iff]
      intro hc
      exact absurd (h2.mp hc) (not_le.mpr hlt)
    · exact Or.inr ⟨⟨h1.mpr (le_of_eq heq.symm), h2.mpr (le_of_eq heq)⟩, hle⟩

theorem rankLe_total (e : List ℚ) (x y : Nat × VEntry) :
    rankLe e x y = true ∨ rankLe e y x = true := by
  rcases lt_trichotomy (cosineSim e x.2.embedding)
      (cosineSim e y.2.embedding) with h | h | h
  · exact Or.inr ((rankLe_iff e y x).mpr (Or.inl h))
  · rcases le_total x.1 y.1 with hi | hi
    · exact Or.inl ((rankLe_iff e x y).mpr (Or.inr ⟨h, hi⟩))
    · exact Or.inr ((rankLe_iff e y x).mpr (Or.inr ⟨h.symm, hi⟩))
  · exact Or.inl ((rankLe_iff e x y).mpr (Or.inl h))

theorem rankLe_trans (e : List ℚ) (x y z : Nat × VEntry)
    (hxy : rankLe e x y = true) (hyz : rankLe e y z = true) :
    rankLe e x z = true := by
  rw [rankLe_iff] at hxy hyz ⊢
  rcases hxy with h1 | ⟨h1, h1b⟩ <;> rcases hyz with h2 | ⟨h2, h2b⟩
  · exact Or.inl (lt_trans h2 h1)
  · exact Or.inl (by rw [← h2]; exact h1)
  · exact Or.inl (by rw [h1]; exact h2)
  · exact Or.inr ⟨h1.trans h2, le_trans h1b h2b⟩

/-- Insertion of one element into a list sorted by a boolean order. -/
def insertBy (le : α → α → Bool) (a : α) : List α → List α
  | [] => [a]
  | b :: bs => if le a b then a :: b :: bs else b :: insertBy le a bs

/-- Sorting by a boolean order; for the total antisymmetric orders used
here the result is the unique sorted permutation, so it agrees with the
ranking the spec prescribes. -/
def sortBy (le : α → α → Bool) : List α → List α
  | [] => []
  | a :: as => insertBy le a (sortBy le as)

@[simp] theorem length_insertBy (le : α → α → Bool) (a : α) (l : List α) :
    (insertBy le a l).length = l.length + 1 := by
  induction l with
  | nil => rfl
  | cons b bs ih =>
    simp only [insertBy]
    by_cases h : le a b = true
    · rw [if_pos h]
      rfl
    · rw [if_neg h]
      simp [ih]

@[simp] theorem length_sortBy (le : α → α → Bool) (l : List α) :
    (sortBy le l).length = l.length := by
  induction l with
  | nil => rfl
  | cons a as ih => simp [sortBy, ih]

theorem perm_insertBy (le : α → α → Bool) (a : α) (l : List α) :
    (insertBy le a l).Perm (a :: l) := by
  induction l with
  | nil => exact List.Perm.refl _
  | cons b bs ih =>
    simp only [insertBy]
    by_cases h : le a b = true
    · rw [if_pos h]
    · rw [if_neg h]
      exact (ih.cons b).trans (List.Perm.swap a b bs)

theorem perm_sortBy (le : α → α → Bool) (l : List α) :
    (sortBy le l).Perm l := by
  induction l with
  | nil => exact List.Perm.refl _
  | cons a as ih =>
    exact (perm_insertBy le a (sortBy le as)).trans (ih.cons a)

theorem mem_insertBy (le : α → α → Bool) (a x : α) (l : List α) :
    x ∈ insertBy le a l ↔ x = a ∨ x ∈ l := by
  rw [(perm_insertBy le a l).mem_iff]
  simp

theorem pairwise_insertBy (le : α → α → Bool)
    (htot : ∀ x y, le x y = true ∨ le y x = true)
    (htr : ∀ x y z, le x y = true → le y z = true → le x z = true)
    (a : α) (l : List α) (h : l.Pairwise (fun x y => le x y = true)) :
    (insertBy le a l).Pairwise (fun x y => le x y = true) := by
  induction l with
  | nil => simp [insertBy]
  | cons b bs ih =>
    have hps := List.pairwise_cons.mp h
    simp only [insertBy]
    by_cases hab : le a b = true
    · rw [if_pos hab]
      rw [List.pairwise_cons]
      refine ⟨?_, h⟩
      intro y hy
      rcases List.mem_cons.mp hy with rfl | hy2
      · exact hab
      · exact htr a b y hab (hps.1 y hy2)
    · rw [if_neg hab]
      rcases htot a b with h1 | h1
      · exact absurd h1 hab
      · rw [List.pairwise_cons]
        refine ⟨?_, ih hps.2⟩
        intro y hy
        rcases (mem_insertBy le a y bs).mp hy with rfl | hy2
        · exact h1
        · exact hps.1 y hy2

theorem pairwise_sortBy (le : α → α → Bool)
    (htot : ∀ x y, le x y = true ∨ le y x = true)
    (htr : ∀ x y z, le x y = true → le y z = true → le x z = true)
    (l : List α) :
    (sortBy le l).Pairwise (fun x y => le x y = true) := by
  induction l with
  | nil => simp [sortBy]
  | cons a as ih => exact pairwise_insertBy le htot htr a (sortBy le as) ih

/-- Modelled from the spec: Vector Index query (section 4.2), missing
from the given sources; entries are paired with their insertion index,
ranked by descending cosine similarity to the query embedding with ties
broken by lowest insertion index, and the first k are returned. -/
def vectorQuery (idx : List VEntry) (e : List ℚ) (k : Nat) :
    List (Nat × VEntry) :=
  (sortBy (rankLe e) idx.enum).take k

/-- Levenshtein edit distance between two character lists. -/
def levenshtein : List Char → List Char → Nat
  | [], bs => bs.length
  | a :: as, [] => (a :: as).length
  | a :: as, b :: bs =>
    if a = b then levenshtein as bs
    else 1 + min (levenshtein as (b :: bs))
      (min (levenshtein (a :: as) bs) (levenshtein as bs))
termination_by a b => a.length + b.length
decreasing_by all_goals simp +arith [List.length]

/-- Modelled from the spec: a Fuzzy Index entry, a stored pair of a
chunk and its raw text (section 3). -/
structure FEntry where
  chunk : String
  text : String
deriving DecidableEq

/-- Modelled from the spec: a normalized approximate-matching score in
the interval from zero to one, larger for texts closer in edit distance
to the query (section 4.3). -/
def lexScore (q t : String) : ℚ :=
  1 / (1 + levenshtein q.toList t.toList)

/-- Modelled from the spec: the ranking order of the Fuzzy Index
(section 4.3) on insertion-indexed entries; an entry precedes another
when its edit distance to the query is strictly smaller (its score
strictly larger), or equal with a lower insertion index. -/
def lexLe (q : String) (x y : Nat × FEntry) : Bool :=
  decide (levenshtein q.toList x.2.text.toList <
    levenshtein q.toList y.2.text.toList) ||
  (decide (levenshtein q.toList x.2.text.toList =
    levenshtein q.toList y.2.text.toList) && decide (x.1 ≤ y.1))

theorem lexScore_lt_iff (q t u : String) :
    lexScore q t < lexScore q u ↔
      levenshtein q.toList u.toList < levenshtein q.toList t.toList := by
  rw [lexScore, lexScore, one_div_lt_one_div (by positivity) (by positivity)]
  constructor
  · intro h1
    have h2 : ((levenshtein q.toList u.toList : ℚ)) <
        ((levenshtein q.toList t.toList : ℚ)) := by linarith
    exact_mod_cast h2
  · intro h1
    have h2 : ((levenshtein q.toList u.toList : ℚ)) <
        ((levenshtein q.toList t.toList : ℚ)) := by exact_mod_cast h1
    linarith

/-- Modelled from the spec: Fuzzy Index query (section 4.3), missing
from the given sources; entries are ranked by descending lexical
similarity score with ties broken by lowest insertion index, and the
first k are returned. -/
def fuzzyQuery (idx : List FEntry) (q : String) (k : Nat) :
    List (Nat × FEntry) :=
  (sortBy (lexLe q) idx.enum).take k
theorem cosineSim_le_one (e a : List ℚ) : cosineSim e a ≤ 1 := by
  rw [cosineSim_eq_div_sqrt]
  have hQ : (0 : ℚ) ≤ normSq e * normSq a :=
    mul_nonneg (normSq_nonneg e) (normSq_nonneg a)
  have hQR : (0 : ℝ) ≤ ((normSq e * normSq a : ℚ) : ℝ) := by exact_mod_cast hQ
  rcases eq_or_lt_of_le hQR with h0 | hpos
  · rw [← h0, Real.sqrt_zero, div_zero]
    norm_num
  · rw [div_le_one (Real.sqrt_pos.mpr hpos)]
    have hcs := dot_sq_le e a
    have hcsR : ((dot e a : ℚ) : ℝ) ^ 2 ≤ ((normSq e * normSq a : ℚ) : ℝ) := by
      exact_mod_cast hcs
    calc ((dot e a : ℚ) : ℝ) ≤ |((dot e a : ℚ) : ℝ)| := le_abs_self _
      _ = Real.sqrt (((dot e a : ℚ) : ℝ) ^ 2) := (Real.sqrt_sq_eq_abs _).symm
      _ ≤ Real.sqrt (((normSq e * normSq a : ℚ) : ℝ)) :=
        Real.sqrt_le_sqrt hcsR

theorem cosineSim_self (e : List ℚ) (h : normSq e ≠ 0) :
    cosineSim e e = 1 := by
  rw [cosineSim, magnitude]
  rw [Real.mul_self_sqrt (by exact_mod_cast normSq_nonneg e)]
  rw [show dot e e = normSq e from rfl]
  exact div_self (by exact_mod_cast h)

theorem head?_take (l : List α) (k : Nat) (hk : 1 ≤ k) :
    (l.take k).head? = l.head? := by
  cases l with
  | nil => simp
  | cons a as =>
    cases k with
    | zero => omega
    | succ k2 => simp

theorem pairwise_ne_fst_sortBy (le : Nat × α → Nat × α → Bool)
    (l : List α) :
    (sortBy le l.enum).Pairwise (fun x y => x.1 ≠ y.1) := by
  have hp := perm_sortBy le l.enum
  have h1 : (l.enum.map Prod.fst).Nodup := by
    rw [List.enum_map_fst]
    exact List.nodup_range _
  have h2 : ((sortBy le l.enum).map Prod.fst).Nodup :=
    ((hp.map Prod.fst).nodup_iff).mpr h1
  rw [List.Nodup, List.pairwise_map] at h2
  exact h2

/-- Claim C1: for every Vector Index state and query embedding e,
query(e, k) returns a sequence sorted by non-increasing cosine
similarity to e, containing at most min(k, index size) entries (here
exactly that many), with ties broken by insertion order, lowest index
first; and k = 0 yields the empty sequence without error. -/
theorem C1_vectorQuery_ranking (idx : List VEntry) (e : List ℚ) (k : Nat) :
    (vectorQuery idx e k).length = min k idx.length ∧
    (vectorQuery idx e k).Pairwise (fun x y =>
      cosineSim e y.2.embedding ≤ cosineSim e x.2.embedding ∧
      (cosineSim e x.2.embedding = cosineSim e y.2.embedding →
        x.1 < y.1)) ∧
    vectorQuery idx e 0 = [] := by
  refine ⟨?_, ?_, by simp [vectorQuery]⟩
  · simp [vectorQuery]
  · have hsorted := pairwise_sortBy (rankLe e) (rankLe_total e)
      (rankLe_trans e) idx.enum
    have hnodup := pairwise_ne_fst_sortBy (rankLe e) idx
    have hcomb := hsorted.and hnodup
    have himp : ∀ x y : Nat × VEntry,
        (rankLe e x y = true ∧ x.1 ≠ y.1) →
        (cosineSim e y.2.embedding ≤ cosineSim e x.2.embedding ∧
          (cosineSim e x.2.embedding = cosineSim e y.2.embedding →
            x.1 < y.1)) := by
      rintro x y ⟨hr, hne⟩
      rw [rankLe_iff] at hr
      rcases hr with hlt | ⟨heq, hle⟩
      · refine ⟨le_of_lt hlt, fun heq2 => ?_⟩
        rw [heq2] at hlt
        exact absurd hlt (lt_irrefl _)
      · exact ⟨le_of_eq heq.symm, fun _ => lt_of_le_of_ne hle hne⟩
    have hfinal := List.Pairwise.imp (fun {x y} h => himp x y h) hcomb
    exact List.Pairwise.sublist (List.take_sublist k _) hfinal

/-- Claim C2: for o < n the chunker emits windows of n consecutive
sentences whose starts advance by n - o each step; consecutive chunks
share exactly o sentences (the stride-offset suffix of the former
equals the o-prefix of the latter, of length exactly o); every emitted
window starts inside the document and the first window reaching the
document end — possibly shorter than n — is still emitted, as shown by
the window count matching ceil((s - o) / (n - o)) for s > o and by
every sentence, including the trailing ones, lying in some chunk; and
a document with zero sentences yields zero chunks. -/
theorem C2_sentence_windows {α : Type} (n o : Nat) (h : o < n)
    (sents : List α) :
    (∀ i (hi : i < (sentenceChunks n o sents).length),
      (sentenceChunks n o sents).get ⟨i, hi⟩ =
        (sents.drop (i * (n - o))).take n) ∧
    (∀ i (hi : i + 1 < (sentenceChunks n o sents).length),
      ((sentenceChunks n o sents).get
          ⟨i, Nat.lt_of_succ_lt hi⟩).drop (n - o) =
        ((sentenceChunks n o sents).get ⟨i + 1, hi⟩).take o ∧
      (((sentenceChunks n o sents).get ⟨i + 1, hi⟩).take o).length = o) ∧
    (∀ i, i < (sentenceChunks n o sents).length →
      i * (n - o) < sents.length) ∧
    (o < sents.length →
      (sentenceChunks n o sents).length =
        (sents.length - o + (n - o) - 1) / (n - o)) ∧
    (∀ j (hj : j < sents.length),
      ∃ i, ∃ hi : i < (sentenceChunks n o sents).length,
        sents[j] ∈ (sentenceChunks n o sents)[i]) ∧
    sentenceChunks n o ([] : List α) = [] := by
  refine ⟨fun i hi => sentenceChunks_get n o sents i hi,
    fun i hi => ⟨sentenceChunks_overlap n o h sents i hi,
      sentenceChunks_share n o h sents i hi⟩,
    fun i hi => ?_,
    fun hso => ?_,
    fun j hj => sentenceChunks_cover n o h sents j hj,
    sentenceChunks_nil n o⟩
  · apply start_lt n o sents.length h i
    rw [← sentenceChunks_length n o sents]
    exact hi
  · rw [sentenceChunks_length, numChunks_formula n o sents.length h hso]

theorem C2_witness :
    (sentenceChunks 2 1 ["a", "b", "c"]).length = 2 := by
  have h := C2_sentence_windows 2 1 (by decide) ["a", "b", "c"]
  have h2 := h.2.2.2.1 (by decide)
  simpa using h2

/-- Claim C3: constructing ChunkStrategy::Sentence with overlap at
least sentence_count, or with sentence_count zero, fails with a
ConfigurationError at construction time, and valid parameters
succeed. -/
theorem C3_mkSentence_validation (n o : Nat) :
    ((n = 0 ∨ n ≤ o) → ∃ err, mkSentence n o = Except.error err) ∧
    (0 < n → o < n →
      mkSentence n o = Except.ok (ChunkStrategy.sentence n o)) := by
  constructor
  · rintro (h0 | hle)
    · exact ⟨ConfigurationError.zeroSentenceCount, by simp [mkSentence, h0]⟩
    · by_cases h0 : n = 0
      · exact ⟨ConfigurationError.zeroSentenceCount, by simp [mkSentence, h0]⟩
      · exact ⟨ConfigurationError.overlapTooLarge,
          by simp [mkSentence, h0, hle]⟩
  · intro h1 h2
    have h0 : ¬ n = 0 := by omega
    have h3 : ¬ n ≤ o := by omega
    simp [mkSentence, h0, h3]

theorem C3_witness :
    (∃ err, mkSentence 0 0 = Except.error err) ∧
      mkSentence 2 1 = Except.ok (ChunkStrategy.sentence 2 1) :=
  ⟨(C3_mkSentence_validation 0 0).1 (Or.inl rfl),
    (C3_mkSentence_validation 2 1).2 (by decide) (by decide)⟩

/-- Claim C4: if the embedding capability fails on the chunk at
position i of the chunk sequence of the documents, the whole extend
call returns that error, the final index is the initial one extended by
exactly the successfully embedded chunks before i, and in particular
every such chunk remains in the index (no rollback, no
partial-success result). -/
theorem C4_extend_first_error (embed : String → Except ε (List ℚ))
    (n o : Nat) (idx : List VEntry) (docs : List (List String))
    (i : Nat) (e : ε)
    (hi : i < (docs.flatMap (docChunks n o)).length)
    (hok : ∀ j, j < i →
      ∃ v, embed ((docs.flatMap (docChunks n o)).getD j "") = Except.ok v)
    (herr : embed ((docs.flatMap (docChunks n o)).getD i "") =
      Except.error e) :
    (dbExtend embed n o idx docs).2 = Except.error e ∧
    (dbExtend embed n o idx docs).1 =
      idx ++ ((docs.flatMap (docChunks n o)).take i).map
        (fun c => VEntry.mk c (okValue (embed c))) ∧
    ∀ j, j < i →
      VEntry.mk ((docs.flatMap (docChunks n o)).getD j "")
        (okValue (embed ((docs.flatMap (docChunks n o)).getD j ""))) ∈
        (dbExtend embed n o idx docs).1 := by
  have hmain := extendChunks_error_eq embed (docs.flatMap (docChunks n o))
    i e hi hok herr idx
  refine ⟨?_, ?_, ?_⟩
  · rw [dbExtend, hmain]
  · rw [dbExtend, hmain]
  · intro j hj
    rw [dbExtend, hmain]
    simp only [List.mem_append]
    right
    rw [List.mem_map]
    refine ⟨(docs.flatMap (docChunks n o)).getD j "", ?_, rfl⟩
    have hj2 : j < ((docs.flatMap (docChunks n o)).take i).length := by
      rw [List.length_take]
      omega
    have hj3 : j < (docs.flatMap (docChunks n o)).length := by omega
    have hgd : ((docs.flatMap (docChunks n o)).take i)[j] =
        (docs.flatMap (docChunks n o)).getD j "" := by
      rw [List.getElem_take, List.getD_eq_getElem _ _ hj3]
    rw [← hgd]
    exact List.getElem_mem hj2

theorem C4_witness :
    (dbExtend
      (fun c => if c = "b" then Except.error 7 else Except.ok ([1] : List ℚ))
      1 0 [] [["a", "b"]]).2 = Except.error 7 ∧
    (dbExtend
      (fun c => if c = "b" then Except.error 7 else Except.ok ([1] : List ℚ))
      1 0 [] [["a", "b"]]).1 = [VEntry.mk "a" [1]] := by
  have h := C4_extend_first_error (ε := ℕ)
    (fun c => if c = "b" then Except.error 7 else Except.ok ([1] : List ℚ))
    1 0 [] [["a", "b"]] 1 7 (by decide)
    (fun j hj => by
      have hj0 : j = 0 := by omega
      subst hj0
      exact ⟨[1], rfl⟩)
    rfl
  refine ⟨h.1, ?_⟩
  rw [h.2.1]
  rfl
/-- Claim C5: AdaEmbedder::embed propagates every request-construction
or remote-API failure to the caller unmodified — its error outcomes are
exactly the underlying errors, with no retry, swallowing or
substitution — and on a successful response carrying at least one
embedding it returns the embedding built from the first data element. -/
theorem C5_adaEmbed_contract {ε ρ : Type} (build : String → Except ε ρ)
    (create : ρ → Except ε CreateEmbeddingResponse) (input : String) :
    (∀ e, adaEmbed build create input = EmbedOutcome.err e ↔
      (build input = Except.error e ∨
        ∃ req, build input = Except.ok req ∧ create req = Except.error e)) ∧
    (∀ req resp d rest, build input = Except.ok req →
      create req = Except.ok resp → resp.data = d :: rest →
      adaEmbed build create input = EmbedOutcome.ok d.embedding) := by
  constructor
  · intro e
    cases hb : build input with
    | error e0 => simp [adaEmbed, hb]
    | ok req =>
      cases hc : create req with
      | error e0 => simp [adaEmbed, hb, hc]
      | ok resp =>
        cases hd : resp.data with
        | nil => simp [adaEmbed, hb, hc, hd]
        | cons d rest => simp [adaEmbed, hb, hc, hd]
  · intro req resp d rest hb hc hd
    simp [adaEmbed, hb, hc, hd]

theorem C5_witness :
    adaEmbed (fun _ : String => (Except.ok () : Except ℕ Unit))
      (fun _ => Except.ok
        (CreateEmbeddingResponse.mk [EmbeddingData.mk [1, 2]]))
      "hi" = EmbedOutcome.ok [1, 2] :=
  (C5_adaEmbed_contract _ _ _).2 ()
    (CreateEmbeddingResponse.mk [EmbeddingData.mk [1, 2]])
    (EmbeddingData.mk [1, 2]) [] rfl rfl rfl

/-- Claim C6: search on an empty index returns the empty sequence, and
on an under-populated index a correspondingly short sequence — exactly
min(k, index size) results — for both the Vector Index and the Fuzzy
Index; both queries are total functions, so no error is possible. -/
theorem C6_empty_and_short (vidx : List VEntry) (fidx : List FEntry)
    (e : List ℚ) (q : String) (k : Nat) :
    vectorQuery [] e k = [] ∧
    fuzzyQuery [] q k = [] ∧
    (vectorQuery vidx e k).length = min k vidx.length ∧
    (fuzzyQuery fidx q k).length = min k fidx.length := by
  refine ⟨by simp [vectorQuery, sortBy], by simp [fuzzyQuery, sortBy],
    ?_, ?_⟩
  · simp [vectorQuery]
  · simp [fuzzyQuery]

/-- Claim C7 (amended): for a Vector Index state containing an entry
whose stored embedding equals the nonzero query embedding e, and
k at least 1, the first result of query(e, k) has cosine similarity
exactly 1.0 to e; an entry attaining the maximal similarity 1.0 is
ranked first, though an earlier-inserted entry of similarity 1.0 may
stand ahead of the exactly matching one by the insertion-order tie
break. -/
theorem C7_exact_match_top (idx : List VEntry) (e : List ℚ) (k : Nat)
    (hne : normSq e ≠ 0) (hmem : ∃ v ∈ idx, v.embedding = e)
    (hk : 1 ≤ k) :
    ∃ x, (vectorQuery idx e k).head? = some x ∧
      cosineSim e x.2.embedding = 1 := by
  obtain ⟨v, hv, hve⟩ := hmem
  obtain ⟨⟨i, hi⟩, hgetv⟩ := List.mem_iff_get.mp hv
  have hperm := perm_sortBy (rankLe e) idx.enum
  have hienum : i < idx.enum.length := by
    rw [List.enum_length]
    exact hi
  have hgv : idx[i] = v := by
    simpa [List.get_eq_getElem] using hgetv
  have henumi : idx.enum[i] = (i, v) := by
    rw [List.getElem_enum, hgv]
  have hmem2 : (i, v) ∈ sortBy (rankLe e) idx.enum := by
    rw [hperm.mem_iff, ← henumi]
    exact List.getElem_mem hienum
  cases hsnil : sortBy (rankLe e) idx.enum with
  | nil =>
    rw [hsnil] at hmem2
    simp at hmem2
  | cons x0 rest =>
    have hhead : (vectorQuery idx e k).head? = some x0 := by
      rw [vectorQuery, head?_take _ _ hk, hsnil]
      rfl
    refine ⟨x0, hhead, ?_⟩
    have h1 : cosineSim e x0.2.embedding ≤ 1 := cosineSim_le_one e _
    have hsorted := pairwise_sortBy (rankLe e) (rankLe_total e)
      (rankLe_trans e) idx.enum
    rw [hsnil] at hsorted
    rw [hsnil] at hmem2
    have hveq : cosineSim e ((i, v) : Nat × VEntry).2.embedding = 1 := by
      rw [show ((i, v) : Nat × VEntry).2 = v from rfl, hve]
      exact cosineSim_self e hne
    have h2 : 1 ≤ cosineSim e x0.2.embedding := by
      rcases List.mem_cons.mp hmem2 with heq | hmem3
      · rw [← heq]
        rw [hveq]
      · have hr := (List.pairwise_cons.mp hsorted).1 (i, v) hmem3
        rw [rankLe_iff] at hr
        rcases hr with hlt | ⟨heq, _⟩
        · rw [hveq] at hlt
          linarith
        · rw [hveq] at heq
          linarith [le_of_eq heq]
    linarith

theorem C7_witness :
    ∃ x, (vectorQuery [VEntry.mk "c" [1]] [1] 1).head? = some x ∧
      cosineSim [1] x.2.embedding = 1 :=
  C7_exact_match_top [VEntry.mk "c" [1]] [1] 1 (by norm_num [normSq, dot])
    ⟨VEntry.mk "c" [1], by simp, rfl⟩ (le_refl 1)

/-- Claim C7 counterexample: the index holding c1 with embedding [2]
then c2 with embedding [1] both attain cosine similarity 1.0 to the
query [1], so the insertion-order tie break ranks c1 first even though
only c2 stores exactly the query embedding; and for the zero query
embedding [0] against a stored [0], the top similarity is 0, not
1.0. -/
theorem C7_counterexample :
    VEntry.embedding (VEntry.mk "c2" [1]) = [1] ∧
    (vectorQuery [VEntry.mk "c1" [2], VEntry.mk "c2" [1]] [1] 2).head? =
      some (0, VEntry.mk "c1" [2]) ∧
    VEntry.embedding (VEntry.mk "c1" [2]) ≠ [1] ∧
    (vectorQuery [VEntry.mk "c" [0]] [0] 1).head? =
      some (0, VEntry.mk "c" [0]) ∧
    cosineSim [0] (VEntry.mk "c" [0]).embedding = 0 := by
  refine ⟨rfl,
    by norm_num [vectorQuery, sortBy, insertBy, rankLe, simGeB, normSq,
      dot, List.enum],
    by norm_num,
    by norm_num [vectorQuery, sortBy, insertBy, rankLe, simGeB, normSq,
      dot, List.enum],
    ?_⟩
  have h0 : dot [(0 : ℚ)] [(0 : ℚ)] = 0 := by norm_num [dot]
  rw [show (VEntry.mk "c" [0]).embedding = [(0 : ℚ)] from rfl,
    cosineSim, h0]
  simp

/-- Claim C9: AdaEmbedder::embed reads response.data[0] with no
emptiness check, so a successful response with an empty data array
makes it panic (out-of-bounds index) rather than return an error; it
panics only in that situation, hence is panic-free exactly under the
precondition that every successful response carries at least one
embedding. -/
theorem C9_adaEmbed_empty_data_panics {ε ρ : Type}
    (build : String → Except ε ρ)
    (create : ρ → Except ε CreateEmbeddingResponse) (input : String) :
    (∀ req resp, build input = Except.ok req →
      create req = Except.ok resp → resp.data = [] →
      adaEmbed build create input = EmbedOutcome.panicked) ∧
    (adaEmbed build create input = EmbedOutcome.panicked →
      ∃ req resp, build input = Except.ok req ∧
        create req = Except.ok resp ∧ resp.data = []) := by
  constructor
  · intro req resp hb hc hd
    simp [adaEmbed, hb, hc, hd]
  · intro hp
    rcases hb : build input with e0 | req
    · simp [adaEmbed, hb] at hp
    · rcases hc : create req with e0 | resp
      · simp [adaEmbed, hb, hc] at hp
      · rcases hd : resp.data with _ | ⟨d, rest⟩
        · exact ⟨req, resp, rfl, hc, hd⟩
        · simp [adaEmbed, hb, hc, hd] at hp

theorem C9_witness :
    adaEmbed (fun _ : String => (Except.ok () : Except ℕ Unit))
      (fun _ => Except.ok (CreateEmbeddingResponse.mk [])) "hi" =
      EmbedOutcome.panicked :=
  (C9_adaEmbed_empty_data_panics _ _ _).1 ()
    (CreateEmbeddingResponse.mk []) rfl rfl rfl

/-- Claim C10: MappedResponseStream::poll_next maps a ready Ok response
to the in-order concatenation of its choices text fields, maps a ready
Err item to a ready None — ending the stream with no error surfaced to
the consumer, the item type carrying no error — and passes pending and
stream-end through unchanged. -/
theorem C10_pollNext_mapping {ε : Type} :
    (∀ r : CompletionResponse,
      pollNextMapped (ε := ε) (Poll.ready (some (Except.ok r))) =
        Poll.ready (some (String.join (r.choices.map Choice.text)))) ∧
    (∀ e : ε, pollNextMapped (Poll.ready (some (Except.error e))) =
      Poll.ready (none : Option String)) ∧
    pollNextMapped (ε := ε) Poll.pending = Poll.pending ∧
    pollNextMapped (ε := ε) (Poll.ready none) = Poll.ready none := by
  refine ⟨?_, fun e => rfl, rfl, rfl⟩
  intro r
  simp [pollNextMapped, mapItem, joinSep_empty_sep]
end Floneum
